import Mathlib

/-!
Shallow embedding of the block-cache log analyzer (`src/main.rs`).

The program parses textual log dumps into typed events
`(Data { sst, blk }, SystemTime, Op ∈ {Evicted, Missed})`, sorts them
descending by timestamp (Rust `sort_by_key` with `Reverse(time)`, a stable
sort), builds an eviction index by unconditional overwrite while walking the
sorted stream, and then, in a second pass, correlates every `Missed` event
against the finished index, classifying each into inverted / resolved
(short / long) / unmatched outcomes with three tally counters.

Timestamps are modelled as natural numbers of nanoseconds since the epoch
(`SystemTime = UNIX_EPOCH + Duration::new(tv_sec, tv_nsec)`); `SystemTime`
comparison and `duration_since` are exactly comparison and subtraction of
those nanosecond counts.  `Duration::new` carries `tv_nsec / 10^9` into the
seconds and panics when that carry overflows the unsigned 64-bit seconds
counter; that check is kept explicitly, as is the subsequent panic of
`UNIX_EPOCH + duration` when the carried seconds exceed the platform
`SystemTime` range (`i64::MAX` on the unix targets this tool runs on).
Fallible operations (`unwrap` on `parse::<uN>`, `Duration::new`,
`duration_since`, the `SystemTime` addition) are modelled with
`Except`/`Option`.
-/

/-- `Data { sst: u64, blk: u64 }` — the block key. -/
structure Data where
  sst : Nat
  blk : Nat
deriving DecidableEq

/-- `enum Op { Evicted, Missed }`. -/
inductive Op where
  | Evicted
  | Missed
deriving DecidableEq

/-- One parsed record `(Data, SystemTime, Op)`; `time` is nanoseconds since
the epoch. -/
structure Event where
  data : Data
  time : Nat
  op : Op
deriving DecidableEq

/-- Nanoseconds per second (`NANOS_PER_SEC`). -/
def nanosPerSec : Nat := 1000000000

/-- `2^64`, the bound of the `u64` fields (`sst_id`, `block_idx`, `tv_sec`,
and the seconds counter of `Duration`). -/
def u64Bound : Nat := 18446744073709551616

/-- `2^32`, the bound of the `u32` field `tv_nsec`. -/
def u32Bound : Nat := 4294967296

/-- `2^63`: on unix targets `SystemTime` stores `i64` seconds, so a time
point at or beyond `2^63` seconds from the epoch is unrepresentable and
`UNIX_EPOCH + duration` panics. -/
def i64SecBound : Nat := 9223372036854775808

/-- The short/long threshold: `duration.as_secs_f64() < 10.0`.  For a
normalized `Duration` (nanos < 10^9) the `f64` comparison is exact:
`as_secs_f64 < 10.0` holds iff the seconds counter is at most 9, i.e. iff
the total nanosecond count is below `10 * 10^9` (no double rounding can
cross the boundary, since 10^10 ns is exactly representable and the spacing
of doubles near 10.0 is far below 1 ns). -/
def shortBound : Nat := 10000000000

/-- Descending-time order used by `records.sort_by_key(Reverse(time))`. -/
def timeDesc (a b : Event) : Prop := b.time ≤ a.time

instance : DecidableRel timeDesc := fun a b => Nat.decLe b.time a.time

instance : IsTotal Event timeDesc :=
  ⟨fun a b => Or.symm (Nat.le_total a.time b.time)⟩

instance : IsTrans Event timeDesc :=
  ⟨fun _ _ _ hab hbc => Nat.le_trans hbc hab⟩

/-- The chronological sorter: `records.sort_by_key(|(_, time, _)| Reverse(*time))`.
Rust's `sort_by_key` is a stable sort, and a stable sort for a given total
preorder is unique as a function, so it is embedded as the (stable)
insertion sort on the descending-time order. -/
def sortRecords (l : List Event) : List Event := List.insertionSort timeDesc l

/-- The eviction index `HashMap<(u64, u64), SystemTime>`, modelled as an
association list with overwrite-on-insert semantics. -/
abbrev EvictionIndex := List (Data × Nat)

/-- `HashMap::get` on the eviction index. -/
def lookupIdx : EvictionIndex → Data → Option Nat
  | [], _ => none
  | (k', v) :: rest, k => if k = k' then some v else lookupIdx rest k

/-- `HashMap::insert` on the eviction index: overwrites any existing entry
for the key. -/
def insertIdx : EvictionIndex → Data → Nat → EvictionIndex
  | [], k, v => [(k, v)]
  | (k', v') :: rest, k, v =>
    if k = k' then (k, v) :: rest else (k', v') :: insertIdx rest k v

/-- The index-building side of the first pass over the sorted records:
`if *op == Op::Evicted { evicted_times.insert((data.sst, data.blk), *system_time); }`
for each record, left to right. -/
def buildIndex : List Event → EvictionIndex → EvictionIndex
  | [], m => m
  | e :: rest, m =>
    buildIndex rest (if e.op = Op.Evicted then insertIdx m e.data e.time else m)

/-- `SystemTime::duration_since`: `some (t - earlier)` when `earlier ≤ t`,
otherwise the error case (`Err(SystemTimeError)`, unwrapped in the code). -/
def durationSince (t earlier : Nat) : Option Nat :=
  if earlier ≤ t then some (t - earlier) else none

/-- Latency bucket of a resolved miss. -/
inductive Bucket where
  | Short
  | Long
deriving DecidableEq

/-- Outcome of correlating one `Missed` event against the eviction index. -/
inductive CorrelationResult where
  | Inverted (delta : Nat)
  | Resolved (delta : Nat) (bucket : Bucket)
  | Unmatched
deriving DecidableEq

/-- The three counters `long`, `short`, `none`. -/
structure Tally where
  long : Nat
  short : Nat
  none : Nat
deriving DecidableEq

/-- The body of the correlation loop for a single `Missed` event: look the
key up in `evicted_times`; if found and the eviction is strictly later than
the miss, report an inverted delta (printed with a `-` sign) and leave the
tallies alone; if found and not later, report the resolved delta, bucketed
short (`< 10.0 s`, printed with a `!!!!!!!!!!` marker, `short += 1`) or long
(`long += 1`); if absent, report unmatched (printed as
`No evicted time found`) with `none += 1`.  The `Except.error` cases are the
two `duration_since(..).unwrap()` panics. -/
def missStep (idx : EvictionIndex) (e : Event) (t : Tally) :
    Except Unit (CorrelationResult × Tally) :=
  match lookupIdx idx e.data with
  | some evictedTime =>
    if e.time < evictedTime then
      match durationSince evictedTime e.time with
      | none => .error ()
      | some d => .ok (.Inverted d, t)
    else
      match durationSince e.time evictedTime with
      | none => .error ()
      | some d =>
        if d < shortBound then .ok (.Resolved d .Short, { t with short := t.short + 1 })
        else .ok (.Resolved d .Long, { t with long := t.long + 1 })
  | none => .ok (.Unmatched, { t with none := t.none + 1 })

/-- The second pass (`for (data, system_time, op) in &records`): correlate
every `Missed` event against the finished index, accumulating the tallies
and the per-miss results in order. -/
def missLoop (idx : EvictionIndex) :
    List Event → Tally → Except Unit (List (Event × CorrelationResult) × Tally)
  | [], t => .ok ([], t)
  | e :: rest, t =>
    if e.op = Op.Missed then
      match missStep idx e t with
      | .error _ => .error ()
      | .ok (r, t') =>
        match missLoop idx rest t' with
        | .error _ => .error ()
        | .ok (rs, tf) => .ok ((e, r) :: rs, tf)
    else missLoop idx rest t

/-- The two-pass method actually used by the code: build the whole eviction
index from the sorted stream first, then run the correlation loop over the
same stream. -/
def twoPass (l : List Event) (t : Tally) :
    Except Unit (List (Event × CorrelationResult) × Tally) :=
  missLoop (buildIndex l []) l t

/-- The hypothetical single combined scan described by the spec: one
left-to-right pass that inserts `Evicted` events into the index as it goes
and correlates each `Missed` event against the index built so far. -/
def combinedScan :
    List Event → EvictionIndex → Tally →
      Except Unit (List (Event × CorrelationResult) × Tally)
  | [], _, t => .ok ([], t)
  | e :: rest, m, t =>
    if e.op = Op.Evicted then combinedScan rest (insertIdx m e.data e.time) t
    else
      match missStep m e t with
      | .error _ => .error ()
      | .ok (r, t') =>
        match combinedScan rest m t' with
        | .error _ => .error ()
        | .ok (rs, tf) => .ok ((e, r) :: rs, tf)

/-! ### The extractor `parse`

`fn parse(s: &str) -> Vec<(Data, SystemTime, Op)>` first classifies the
block by looking for one of two literal section markers (`str::contains`,
Evicted checked first), then scans the whole text with the regex

`SstableBlockIndex \x7b sst_id: (\d+), block_idx: (\d+) \x7d, SystemTime \x7b tv_sec: (\d+), tv_nsec: (\d+) \x7d`

collecting the successive non-overlapping leftmost matches, and converts the
four captured digit runs with `parse::<u64>` / `parse::<u32>` (unwrap: fatal
on a capture that is not all ASCII digits or whose value overflows) and
`UNIX_EPOCH + Duration::new(tv_sec, tv_nsec)` (fatal when the nanosecond
carry overflows the u64 seconds counter, and when the resulting time point
exceeds the platform `SystemTime` range).

Text is modelled as `List Char`.  The regex crate's `\d` is Unicode-aware:
it matches the `Nd` (decimal digit) general category, not just ASCII, while
`str::parse::<uN>` accepts ASCII digits only — so a matched capture holding
a non-ASCII decimal digit is a fatal `InvalidDigit` unwrap.  The regex is a
concatenation of literal segments and `(\d+)` groups, each group followed
by a non-`Nd` literal, so the backtracking regex semantics coincide with
maximal-munch `Nd` runs and the scan that tries each position left to right
and restarts after the end of every match. -/

/-- Literal segment before the first capture. -/
def lit1 : List Char := "SstableBlockIndex \x7b sst_id: ".toList

/-- Literal segment between captures 1 and 2. -/
def lit2 : List Char := ", block_idx: ".toList

/-- Literal segment between captures 2 and 3. -/
def lit3 : List Char := " \x7d, SystemTime \x7b tv_sec: ".toList

/-- Literal segment between captures 3 and 4. -/
def lit4 : List Char := ", tv_nsec: ".toList

/-- Literal segment after the last capture. -/
def lit5 : List Char := " \x7d".toList

/-- `========== EVICTED DATA BLOCKS ==========`. -/
def evMarker : List Char := "========== EVICTED DATA BLOCKS ==========".toList

/-- `========== MISSED DATA BLOCKS ==========`. -/
def missMarker : List Char := "========== MISSED DATA BLOCKS ==========".toList

/-- `str::contains` for a literal pattern: some position of `s` starts with
`pat`. -/
def containsSeq (pat : List Char) : List Char → Bool
  | [] => pat.isEmpty
  | c :: rest => pat.isPrefixOf (c :: rest) || containsSeq pat rest

/-- Match a literal segment at the head of the input, returning the rest. -/
def matchLit : List Char → List Char → Option (List Char)
  | [], s => some s
  | _ :: _, [] => none
  | p :: ps, c :: cs => if c = p then matchLit ps cs else none

/-- The non-ASCII ranges of the Unicode `Nd` (decimal digit) general
category (Unicode 15; the claims below depend only on the long-stable
ranges: ASCII, and e.g. Arabic-Indic 1632–1641). -/
def ndRangesNonAscii : List (Nat × Nat) :=
  [(1632, 1641), (1776, 1785), (1984, 1993), (2406, 2415), (2534, 2543),
   (2662, 2671), (2790, 2799), (2918, 2927), (3046, 3055), (3174, 3183),
   (3302, 3311), (3430, 3439), (3558, 3567), (3664, 3673), (3792, 3801),
   (3872, 3881), (4160, 4169), (4240, 4249), (6112, 6121), (6160, 6169),
   (6470, 6479), (6608, 6617), (6784, 6793), (6800, 6809), (6992, 7001),
   (7088, 7097), (7232, 7241), (7248, 7257), (42528, 42537), (43216, 43225),
   (43264, 43273), (43472, 43481), (43504, 43513), (43600, 43609),
   (44016, 44025), (65296, 65305), (66720, 66729), (68912, 68921),
   (69734, 69743), (69872, 69881), (69942, 69951), (70096, 70105),
   (70384, 70393), (70736, 70745), (70864, 70873), (71248, 71257),
   (71360, 71369), (71472, 71481), (71904, 71913), (72016, 72025),
   (72784, 72793), (73040, 73049), (73120, 73129), (73552, 73561),
   (92768, 92777), (92864, 92873), (93008, 93017), (120782, 120831),
   (123200, 123209), (123632, 123641), (124144, 124153), (125264, 125273),
   (130032, 130041)]

/-- The regex crate's default-Unicode `\d`: the `Nd` general category —
ASCII `0`-`9` or one of the non-ASCII decimal-digit ranges. -/
def isRegexDigit (c : Char) : Bool :=
  c.isDigit ||
    ndRangesNonAscii.any fun r => decide (r.1 ≤ c.toNat) && decide (c.toNat ≤ r.2)

/-- Split off the maximal leading run of `\d` (Unicode `Nd`) digits. -/
def takeDigits : List Char → List Char × List Char
  | [] => ([], [])
  | c :: cs =>
    if isRegexDigit c then
      let (d, r) := takeDigits cs
      (c :: d, r)
    else ([], c :: cs)

/-- Match `(\d+)`: a nonempty maximal digit run at the head of the input. -/
def matchDigits (s : List Char) : Option (List Char × List Char) :=
  match takeDigits s with
  | ([], _) => none
  | (d, r) => some (d, r)

/-- The four captured digit runs of one regex match. -/
structure Caps where
  sstDigits : List Char
  blkDigits : List Char
  secDigits : List Char
  nsecDigits : List Char
deriving DecidableEq

/-- Try to match the whole event-line pattern at the head of the input;
on success return the four captures and the text after the match. -/
def matchAt (s : List Char) : Option (Caps × List Char) :=
  (matchLit lit1 s).bind fun s1 =>
  (matchDigits s1).bind fun p1 =>
  (matchLit lit2 p1.2).bind fun s3 =>
  (matchDigits s3).bind fun p2 =>
  (matchLit lit3 p2.2).bind fun s5 =>
  (matchDigits s5).bind fun p3 =>
  (matchLit lit4 p3.2).bind fun s7 =>
  (matchDigits s7).bind fun p4 =>
  (matchLit lit5 p4.2).map fun s9 => (⟨p1.1, p2.1, p3.1, p4.1⟩, s9)

/-- The scan of `Regex::captures_iter`, driven by explicit fuel so it is
structurally recursive (each step either advances one character or jumps
past a match, so `s.length` fuel always suffices; the zero-fuel branch is
unreachable): try the pattern at every position left to right, restart
after the end of each match. -/
def scanFuel : Nat → List Char → List Caps
  | _, [] => []
  | 0, _ :: _ => []
  | fuel + 1, c :: rest =>
    match matchAt (c :: rest) with
    | some (caps, r) => caps :: scanFuel fuel r
    | none => scanFuel fuel rest

/-- `Regex::captures_iter`: successive non-overlapping leftmost matches of
the event-line pattern, in textual order. -/
def scanAux (s : List Char) : List Caps := scanFuel s.length s

/-- Numeric value of a decimal digit string (`str::parse` computes this
value; the regex guarantees every character is a digit). -/
def digitsVal : List Char → Nat :=
  List.foldl (fun v c => v * 10 + (c.toNat - 48)) 0

/-- `cap.parse::<u64>().unwrap()`: fatal when a captured character is not
an ASCII digit (`Err(InvalidDigit)` — the regex `\d` can capture non-ASCII
`Nd` digits) or when the value exceeds `u64::MAX` (`Err(PosOverflow)`). -/
def parseU64 (d : List Char) : Except Unit Nat :=
  if d.all Char.isDigit && decide (digitsVal d < u64Bound) then .ok (digitsVal d)
  else .error ()

/-- `cap.parse::<u32>().unwrap()`: fatal when a captured character is not
an ASCII digit or when the value exceeds `u32::MAX`. -/
def parseU32 (d : List Char) : Except Unit Nat :=
  if d.all Char.isDigit && decide (digitsVal d < u32Bound) then .ok (digitsVal d)
  else .error ()

/-- `UNIX_EPOCH + Duration::new(tv_sec, tv_nsec)` as total nanoseconds.
`Duration::new` adds the carry `tv_nsec / 10^9` to the seconds with
`checked_add(..).expect(..)`: it panics when the carried seconds counter
overflows `u64`. -/
def durationNew (secs nanos : Nat) : Except Unit Nat :=
  if secs + nanos / nanosPerSec < u64Bound then
    .ok ((secs + nanos / nanosPerSec) * nanosPerSec + nanos % nanosPerSec)
  else .error ()

/-- `UNIX_EPOCH + duration` for a total-nanosecond duration: on unix
targets the checked addition panics when the resulting seconds exceed the
`i64` seconds field of `SystemTime`. -/
def epochPlus (nanos : Nat) : Except Unit Nat :=
  if nanos / nanosPerSec < i64SecBound then .ok nanos else .error ()

/-- Convert the four captures of one match into an `Event` (the loop body of
`parse`): `sst`, `blk`, `tv_sec` as `u64`, `tv_nsec` as `u32`, then the
timestamp `UNIX_EPOCH + Duration::new(tv_sec, tv_nsec)`. -/
def capsToEvent (op : Op) (c : Caps) : Except Unit Event :=
  (parseU64 c.sstDigits).bind fun sst =>
  (parseU64 c.blkDigits).bind fun blk =>
  (parseU64 c.secDigits).bind fun sec =>
  (parseU32 c.nsecDigits).bind fun nsec =>
  (durationNew sec nsec).bind fun dur =>
  (epochPlus dur).map fun time => ⟨⟨sst, blk⟩, time, op⟩

/-- Convert the matches left to right, stopping at the first fatal error
(the `unwrap`s abort the run at the first offending capture). -/
def mapExcept (f : α → Except Unit β) : List α → Except Unit (List β)
  | [] => .ok []
  | a :: as =>
    match f a with
    | .error _ => .error ()
    | .ok b =>
      match mapExcept f as with
      | .error _ => .error ()
      | .ok bs => .ok (b :: bs)

/-- `fn parse(s: &str) -> Vec<(Data, SystemTime, Op)>`: classify the block
by its section marker (Evicted checked first; neither marker → no events),
then convert every regex match. -/
def parse (s : List Char) : Except Unit (List Event) :=
  if containsSeq evMarker s then mapExcept (capsToEvent Op.Evicted) (scanAux s)
  else if containsSeq missMarker s then mapExcept (capsToEvent Op.Missed) (scanAux s)
  else .ok []

/-- The `Evicted` events of the stream carrying key `k`, in stream order. -/
def evictionsFor (k : Data) (l : List Event) : List Event :=
  l.filter fun e => decide (e.op = Op.Evicted ∧ e.data = k)

/-- The combined-scan safety condition: no `Missed` event is followed, later
in the scan, by an `Evicted` event for the same key. -/
def scanSafe : List Event → Bool
  | [] => true
  | e :: rest =>
    (!decide (e.op = Op.Missed) ||
      rest.all fun e' => !(decide (e'.op = Op.Evicted) && decide (e'.data = e.data))) &&
      scanSafe rest

/-- The input does not begin with a `\d` digit (so a maximal digit run
ends exactly here). -/
def headNotDigit : List Char → Bool
  | [] => true
  | c :: _ => !isRegexDigit c

/-- One full event line, as matched by the regex, with the four captured
digit runs spliced between the literal segments. -/
def eventLine (d1 d2 d3 d4 : List Char) : List Char :=
  lit1 ++ d1 ++ lit2 ++ d2 ++ lit3 ++ d3 ++ lit4 ++ d4 ++ lit5

/-- A capture as the regex produces it: a nonempty run of `\d` digits. -/
def ndRun (d : List Char) : Prop := d ≠ [] ∧ ∀ c ∈ d, isRegexDigit c = true

instance (d : List Char) : Decidable (ndRun d) := by
  unfold ndRun
  exact instDecidableAnd

/-- A well-formed capture: a nonempty run of ASCII decimal digits (the only
runs `parse::<uN>` accepts). -/
def digitRun (d : List Char) : Prop := d ≠ [] ∧ ∀ c ∈ d, c.isDigit = true

instance (d : List Char) : Decidable (digitRun d) := by
  unfold digitRun
  exact instDecidableAnd

/-- `litMismatch p a = true` when matching the literal `p` already hits a
mismatching character inside `a` (whatever text follows `a`). -/
def litMismatch : List Char → List Char → Bool
  | [], _ => false
  | _ :: _, [] => false
  | p :: ps, c :: cs => if c = p then litMismatch ps cs else true

/-- Every nonempty suffix of `p` already mismatches the pattern's first
literal segment within `p` itself, so no match of the scan can start inside
`p`. -/
def allMismatch : List Char → Bool
  | [] => true
  | c :: rest => litMismatch lit1 (c :: rest) && allMismatch rest

/-- The fatal conditions of one match's conversion: a capture holding a
non-ASCII `Nd` digit (`parse::<uN>` rejects it), a capture exceeding its
integer width, the `Duration::new` nanosecond carry overflowing the 64-bit
seconds counter, or the carried seconds exceeding the platform `SystemTime`
range. -/
def capsFatal (c : Caps) : Bool :=
  !(c.sstDigits.all Char.isDigit) || !(c.blkDigits.all Char.isDigit) ||
  !(c.secDigits.all Char.isDigit) || !(c.nsecDigits.all Char.isDigit) ||
  decide (u64Bound ≤ digitsVal c.sstDigits) || decide (u64Bound ≤ digitsVal c.blkDigits) ||
  decide (u64Bound ≤ digitsVal c.secDigits) || decide (u32Bound ≤ digitsVal c.nsecDigits) ||
  decide (u64Bound ≤ digitsVal c.secDigits + digitsVal c.nsecDigits / nanosPerSec) ||
  decide (i64SecBound ≤ digitsVal c.secDigits + digitsVal c.nsecDigits / nanosPerSec)

/-- A well-formed match per the spec (§4.1): every capture an ASCII decimal
digit run, values fitting their integer widths, nanoseconds at most
999,999,999 — and the seconds within the platform `SystemTime` range
(without which the program aborts instead of extracting). -/
def capsWellFormed (c : Caps) : Prop :=
  (∀ ch ∈ c.sstDigits, ch.isDigit = true) ∧ (∀ ch ∈ c.blkDigits, ch.isDigit = true) ∧
  (∀ ch ∈ c.secDigits, ch.isDigit = true) ∧ (∀ ch ∈ c.nsecDigits, ch.isDigit = true) ∧
  digitsVal c.sstDigits < u64Bound ∧ digitsVal c.blkDigits < u64Bound ∧
  digitsVal c.secDigits < i64SecBound ∧ digitsVal c.nsecDigits < nanosPerSec

instance (c : Caps) : Decidable (capsWellFormed c) := by
  unfold capsWellFormed
  exact instDecidableAnd

/-- The `Event` a well-formed match converts to. -/
def capsEvent (op : Op) (c : Caps) : Event :=
  ⟨⟨digitsVal c.sstDigits, digitsVal c.blkDigits⟩,
    digitsVal c.secDigits * nanosPerSec + digitsVal c.nsecDigits, op⟩

instance {ε α : Type _} [DecidableEq ε] [DecidableEq α] :
    DecidableEq (Except ε α) := fun x y =>
  match x, y with
  | .ok a, .ok b =>
    if h : a = b then isTrue (by rw [h])
    else isFalse fun hc => h (by injection hc)
  | .error u, .error v =>
    if h : u = v then isTrue (by rw [h])
    else isFalse fun hc => h (by injection hc)
  | .ok _, .error _ => isFalse fun hc => Except.noConfusion hc
  | .error _, .ok _ => isFalse fun hc => Except.noConfusion hc

/-! ### Lemmas about the scanner -/

theorem matchLit_length : ∀ p s r, matchLit p s = some r → r.length + p.length = s.length
  | [], _, _, h => by cases h; simp [matchLit]
  | _ :: _, [], _, h => by simp [matchLit] at h
  | p :: ps, c :: cs, r, h => by
    by_cases hc : c = p
    · simp only [matchLit, if_pos hc] at h
      have := matchLit_length ps cs r h
      simp [List.length_cons]
      omega
    · simp [matchLit, hc] at h

theorem takeDigits_length : ∀ s, (takeDigits s).1.length + (takeDigits s).2.length = s.length
  | [] => rfl
  | c :: cs => by
    by_cases hc : isRegexDigit c
    · have := takeDigits_length cs
      simp [takeDigits, hc]
      omega
    · simp [takeDigits, hc]

theorem matchDigits_length (s d r : List Char) (h : matchDigits s = some (d, r)) :
    r.length < s.length ∧ d.length + r.length = s.length := by
  unfold matchDigits at h
  have hlen := takeDigits_length s
  rcases htd : takeDigits s with ⟨d', r'⟩
  rw [htd] at h hlen
  cases d' with
  | nil => simp at h
  | cons a as =>
    simp at h
    rcases h with ⟨h1, h2⟩
    subst h1; subst h2
    constructor
    · simp at hlen; omega
    · exact hlen

theorem matchAt_length (s : List Char) (c : Caps) (r : List Char)
    (h : matchAt s = some (c, r)) : r.length < s.length := by
  unfold matchAt at h
  simp only [Option.bind_eq_some, Option.map_eq_some'] at h
  obtain ⟨s1, h1, ⟨d1, s2⟩, h2, s3, h3, ⟨d2, s4⟩, h4, s5, h5, ⟨d3, s6⟩, h6,
    s7, h7, ⟨d4, s8⟩, h8, s9, h9, hr⟩ := h
  have l1 := matchLit_length _ _ _ h1
  have l2 := (matchDigits_length _ _ _ h2).2
  have l3 := matchLit_length _ _ _ h3
  have l4 := (matchDigits_length _ _ _ h4).2
  have l5 := matchLit_length _ _ _ h5
  have l6 := (matchDigits_length _ _ _ h6).2
  have l7 := matchLit_length _ _ _ h7
  have l8 := (matchDigits_length _ _ _ h8).2
  have l9 := matchLit_length _ _ _ h9
  have hr' : r = s9 := congrArg Prod.snd hr.symm
  subst hr'
  have hlit1 : lit1.length = 28 := by decide
  dsimp only at l3 l5 l7 l9
  omega

theorem scanFuel_congr : ∀ (f g : Nat) (s : List Char),
    s.length ≤ f → s.length ≤ g → scanFuel f s = scanFuel g s
  | f, g, [], _, _ => by cases f <;> cases g <;> rfl
  | 0, _, _ :: _, hf, _ => by simp at hf
  | _ + 1, 0, _ :: _, _, hg => by simp at hg
  | f + 1, g + 1, c :: rest, hf, hg => by
    simp only [List.length_cons, Nat.succ_le_succ_iff] at hf hg
    simp only [scanFuel]
    rcases hm : matchAt (c :: rest) with _ | ⟨caps, r⟩
    · exact scanFuel_congr f g rest hf hg
    · have hr : r.length ≤ rest.length := by
        have := matchAt_length (c :: rest) caps r hm
        simp only [List.length_cons] at this
        omega
      exact congrArg (caps :: ·)
        (scanFuel_congr f g r (Nat.le_trans hr hf) (Nat.le_trans hr hg))

/-! ### Lemmas about the eviction index -/

theorem lookupIdx_insertIdx_self (m : EvictionIndex) (k : Data) (v : Nat) :
    lookupIdx (insertIdx m k v) k = some v := by
  induction m with
  | nil => simp [insertIdx, lookupIdx]
  | cons kv rest ih =>
    rcases kv with ⟨k', v'⟩
    by_cases h : k = k'
    · simp [insertIdx, h, lookupIdx]
    · simp [insertIdx, h, lookupIdx, ih]

theorem lookupIdx_insertIdx_ne (m : EvictionIndex) (k k' : Data) (v : Nat)
    (h : k ≠ k') : lookupIdx (insertIdx m k' v) k = lookupIdx m k := by
  induction m with
  | nil => simp [insertIdx, lookupIdx, h]
  | cons kv rest ih =>
    rcases kv with ⟨k'', v''⟩
    by_cases h2 : k' = k''
    · subst h2; simp [insertIdx, lookupIdx, h]
    · simp [insertIdx, h2, lookupIdx, ih]

theorem getLast?_cons_or {α : Type _} (a : α) (l : List α) :
    (a :: l).getLast? = Option.or l.getLast? (some a) := by
  cases l with
  | nil => rfl
  | cons b t =>
    rw [List.getLast?_cons_cons]
    rcases h : (b :: t).getLast? with _ | x
    · rw [List.getLast?_eq_getLast (b :: t) (by simp)] at h; cases h
    · simp [Option.or]

/-- What `buildIndex` leaves in the map at key `k`: last `Evicted` write for
`k` wins, and an untouched key keeps its prior binding. -/
theorem lookupIdx_buildIndex (l : List Event) (m : EvictionIndex) (k : Data) :
    lookupIdx (buildIndex l m) k =
      Option.or ((evictionsFor k l).map Event.time).getLast? (lookupIdx m k) := by
  induction l generalizing m with
  | nil => simp [buildIndex, evictionsFor, Option.none_or]
  | cons e rest ih =>
    by_cases hop : e.op = Op.Evicted
    · by_cases hk : e.data = k
      · have hb : buildIndex (e :: rest) m = buildIndex rest (insertIdx m e.data e.time) := by
          simp [buildIndex, hop]
        have hf : evictionsFor k (e :: rest) = e :: evictionsFor k rest := by
          simp [evictionsFor, List.filter_cons, hop, hk]
        rw [hb, ih, hf, List.map_cons, getLast?_cons_or, Option.or_assoc, hk,
          lookupIdx_insertIdx_self, Option.or_some]
      · have hb : buildIndex (e :: rest) m = buildIndex rest (insertIdx m e.data e.time) := by
          simp [buildIndex, hop]
        have hf : evictionsFor k (e :: rest) = evictionsFor k rest := by
          simp [evictionsFor, List.filter_cons, hk]
        rw [hb, ih, hf, lookupIdx_insertIdx_ne _ _ _ _ (fun hkk => hk hkk.symm)]
    · have hb : buildIndex (e :: rest) m = buildIndex rest m := by
        simp [buildIndex, hop]
      have hf : evictionsFor k (e :: rest) = evictionsFor k rest := by
        simp [evictionsFor, List.filter_cons, hop]
      rw [hb, ih, hf]

theorem lookupIdx_buildIndex_no_evict (l : List Event) (m : EvictionIndex) (k : Data)
    (h : ∀ e ∈ l, e.op = Op.Evicted → e.data ≠ k) :
    lookupIdx (buildIndex l m) k = lookupIdx m k := by
  rw [lookupIdx_buildIndex]
  have hnil : evictionsFor k l = [] := by
    rw [evictionsFor, List.filter_eq_nil_iff]
    intro e he
    simp only [decide_eq_true_iff, not_and]
    exact fun hop => h e he hop
  rw [hnil]; simp [Option.none_or]

/-! ### Lemmas about the sorted stream -/

/-- In a descending-sorted list the last element has minimal time. -/
theorem getLast?_time_min (l : List Event) (y : Event)
    (hp : List.Pairwise timeDesc l) (hy : l.getLast? = some y) :
    ∀ x ∈ l, y.time ≤ x.time := by
  induction l with
  | nil => cases hy
  | cons a rest ih =>
    rcases List.pairwise_cons.mp hp with ⟨ha, hrest⟩
    cases rest with
    | nil =>
      intro x hx
      simp only [List.getLast?_singleton, Option.some.injEq] at hy
      simp only [List.mem_singleton] at hx
      subst hy; subst hx; exact Nat.le_refl _
    | cons b t =>
      rw [List.getLast?_cons_cons] at hy
      intro x hx
      rcases List.mem_cons.mp hx with rfl | hx2
      · have hne : (b :: t) ≠ [] := by simp
        have hym : y ∈ b :: t := by
          rw [List.getLast?_eq_getLast _ hne] at hy
          injection hy with hg
          rw [← hg]
          exact List.getLast_mem hne
        exact ha y hym
      · exact ih hrest hy x hx2

theorem sortRecords_sorted (l : List Event) :
    List.Pairwise timeDesc (sortRecords l) :=
  List.sorted_insertionSort timeDesc l

theorem mem_sortRecords (l : List Event) (x : Event) :
    x ∈ sortRecords l ↔ x ∈ l :=
  List.mem_insertionSort timeDesc

/-- Stability of one ordered insertion: the subsequence of events carrying a
fixed timestamp is preserved (the skipped elements all have strictly larger
time). -/
theorem filter_time_orderedInsert (a : Event) (l : List Event) (t : Nat) :
    (List.orderedInsert timeDesc a l).filter (fun e => decide (e.time = t)) =
      if a.time = t then a :: l.filter (fun e => decide (e.time = t))
      else l.filter (fun e => decide (e.time = t)) := by
  rw [List.orderedInsert_eq_take_drop, List.filter_append]
  by_cases hat : a.time = t
  · have htw : (List.takeWhile (fun b => decide ¬timeDesc a b) l).filter
        (fun e => decide (e.time = t)) = [] := by
      rw [List.filter_eq_nil_iff]
      intro b hb
      have hq := List.mem_takeWhile_imp hb
      simp only [decide_eq_true_iff] at hq ⊢
      intro hbt
      exact hq (by rw [timeDesc, hat, hbt])
    rw [htw, if_pos hat]
    have hfa : (a :: List.dropWhile (fun b => decide ¬timeDesc a b) l).filter
        (fun e => decide (e.time = t)) =
        a :: (List.dropWhile (fun b => decide ¬timeDesc a b) l).filter
          (fun e => decide (e.time = t)) := by
      rw [List.filter_cons, if_pos (by simp [hat])]
    rw [hfa, List.nil_append]
    have hl : (List.takeWhile (fun b => decide ¬timeDesc a b) l).filter
          (fun e => decide (e.time = t)) ++
        (List.dropWhile (fun b => decide ¬timeDesc a b) l).filter
          (fun e => decide (e.time = t)) =
        l.filter (fun e => decide (e.time = t)) := by
      rw [← List.filter_append, List.takeWhile_append_dropWhile]
    rw [← hl, htw, List.nil_append]
  · have hfa : (a :: List.dropWhile (fun b => decide ¬timeDesc a b) l).filter
        (fun e => decide (e.time = t)) =
        (List.dropWhile (fun b => decide ¬timeDesc a b) l).filter
          (fun e => decide (e.time = t)) := by
      rw [List.filter_cons, if_neg (by simp [hat])]
    rw [hfa, if_neg hat, ← List.filter_append, List.takeWhile_append_dropWhile]

/-- Stability of the chronological sorter: events with a given timestamp keep
their relative input order. -/
theorem filter_time_sortRecords (l : List Event) (t : Nat) :
    (sortRecords l).filter (fun e => decide (e.time = t)) =
      l.filter (fun e => decide (e.time = t)) := by
  induction l with
  | nil => rfl
  | cons a rest ih =>
    show (List.orderedInsert timeDesc a (List.insertionSort timeDesc rest)).filter _ = _
    rw [filter_time_orderedInsert, List.filter_cons]
    by_cases hat : a.time = t
    · rw [if_pos hat, if_pos (by simp [hat])]
      rw [show (List.insertionSort timeDesc rest).filter (fun e => decide (e.time = t)) =
        rest.filter (fun e => decide (e.time = t)) from ih]
    · rw [if_neg hat, if_neg (by simp [hat])]
      exact ih

/-! ### Correlation lemmas -/

/-- `missStep` only reads the index at the key of its event. -/
theorem missStep_congr (m₁ m₂ : EvictionIndex) (e : Event) (t : Tally)
    (h : lookupIdx m₁ e.data = lookupIdx m₂ e.data) :
    missStep m₁ e t = missStep m₂ e t := by
  unfold missStep; rw [h]

/-- The guarded subtractions of the correlator are taken only in the branch
where they succeed, so `missStep` never reaches an error. -/
theorem missStep_ok (idx : EvictionIndex) (e : Event) (t : Tally) :
    (missStep idx e t).isOk = true := by
  rcases h : lookupIdx idx e.data with _ | tE
  · simp [missStep, h, Except.isOk, Except.toBool]
  · by_cases hlt : e.time < tE
    · simp [missStep, h, hlt, durationSince, Nat.le_of_lt hlt, Except.isOk, Except.toBool]
    · by_cases hsb : e.time - tE < shortBound
      · simp [missStep, h, hlt, durationSince, Nat.le_of_not_lt hlt, hsb,
          Except.isOk, Except.toBool]
      · simp [missStep, h, hlt, durationSince, Nat.le_of_not_lt hlt, hsb,
          Except.isOk, Except.toBool]

theorem missLoop_ok (idx : EvictionIndex) (l : List Event) (t : Tally) :
    (missLoop idx l t).isOk = true := by
  induction l generalizing t with
  | nil => rfl
  | cons e rest ih =>
    by_cases hop : e.op = Op.Missed
    · rcases hstep : missStep idx e t with u | ⟨r, t'⟩
      · have hok := missStep_ok idx e t
        rw [hstep] at hok
        simp [Except.isOk, Except.toBool] at hok
      · rcases hrec : missLoop idx rest t' with u | ⟨rs, tf⟩
        · have hok := ih t'
          rw [hrec] at hok
          simp [Except.isOk, Except.toBool] at hok
        · simp [missLoop, hop, hstep, hrec, Except.isOk, Except.toBool]
    · rw [missLoop, if_neg hop]; exact ih t

/-- Under the safety condition, the interleaved single pass agrees with
correlating against the index built from the remaining stream as well. -/
theorem combinedScan_eq_missLoop (l : List Event) :
    ∀ (m : EvictionIndex) (t : Tally), scanSafe l = true →
      combinedScan l m t = missLoop (buildIndex l m) l t := by
  induction l with
  | nil => intro m t _; rfl
  | cons e rest ih =>
    intro m t hs
    rw [scanSafe, Bool.and_eq_true] at hs
    rcases hs with ⟨hhead, htail⟩
    cases hop : e.op with
    | Evicted =>
      have hb : buildIndex (e :: rest) m = buildIndex rest (insertIdx m e.data e.time) := by
        simp [buildIndex, hop]
      have hcs : combinedScan (e :: rest) m t =
          combinedScan rest (insertIdx m e.data e.time) t := by
        simp [combinedScan, hop]
      have hml : missLoop (buildIndex (e :: rest) m) (e :: rest) t =
          missLoop (buildIndex (e :: rest) m) rest t := by
        rw [missLoop, if_neg (by rw [hop]; intro hc; cases hc)]
      rw [hcs, hml, hb, ih _ _ htail]
    | Missed =>
      have hb : buildIndex (e :: rest) m = buildIndex rest m := by
        simp [buildIndex, hop]
      have hne : ∀ e' ∈ rest, e'.op = Op.Evicted → e'.data ≠ e.data := by
        rw [hop] at hhead
        simp only [decide_True, Bool.not_true, Bool.false_or, List.all_eq_true] at hhead
        intro e' he' hop' hdat
        have := hhead e' he'
        rw [hop', hdat] at this
        simp at this
      have hlk : lookupIdx (buildIndex rest m) e.data = lookupIdx m e.data :=
        lookupIdx_buildIndex_no_evict rest m e.data hne
      have hms : missStep m e t = missStep (buildIndex rest m) e t :=
        missStep_congr _ _ _ _ hlk.symm
      have hnop : e.op ≠ Op.Evicted := by rw [hop]; intro hc; cases hc
      rw [hb]
      rw [show combinedScan (e :: rest) m t =
        (match missStep m e t with
          | .error _ => .error ()
          | .ok (r, t') =>
            match combinedScan rest m t' with
            | .error _ => .error ()
            | .ok (rs, tf) => .ok ((e, r) :: rs, tf)) from by
          rw [combinedScan, if_neg hnop]]
      rw [show missLoop (buildIndex rest m) (e :: rest) t =
        (match missStep (buildIndex rest m) e t with
          | .error _ => .error ()
          | .ok (r, t') =>
            match missLoop (buildIndex rest m) rest t' with
            | .error _ => .error ()
            | .ok (rs, tf) => .ok ((e, r) :: rs, tf)) from by
          rw [missLoop, if_pos hop]]
      rw [← hms]
      rcases missStep m e t with u | ⟨r, t'⟩
      · rfl
      · exact congrArg
          (fun x => match x with
            | Except.error _ => Except.error ()
            | Except.ok (rs, tf) => Except.ok ((e, r) :: rs, tf))
          (ih _ _ htail)

/-! ### Lemmas for the extractor -/

theorem exceptBind_ok {α β : Type _} (a : α) (f : α → Except Unit β) :
    (Except.ok a).bind f = f a := rfl

theorem exceptBind_error {α β : Type _} (f : α → Except Unit β) :
    ((Except.error () : Except Unit α)).bind f = Except.error () := rfl

theorem exceptMap_ok {α β : Type _} (a : α) (f : α → β) :
    ((Except.ok a : Except Unit α)).map f = Except.ok (f a) := rfl

theorem matchLit_append : ∀ (p s : List Char), matchLit p (p ++ s) = some s
  | [], _ => rfl
  | c :: ps, s => by simp [matchLit, matchLit_append ps s]

theorem headNotDigit_append (p s : List Char) (hp : p ≠ [])
    (h : headNotDigit p = true) : headNotDigit (p ++ s) = true := by
  cases p with
  | nil => exact absurd rfl hp
  | cons c cs => exact h

theorem takeDigits_append (d r : List Char) (hd : ∀ c ∈ d, isRegexDigit c = true)
    (hr : headNotDigit r = true) : takeDigits (d ++ r) = (d, r) := by
  induction d with
  | nil =>
    cases r with
    | nil => rfl
    | cons c cs =>
      simp only [headNotDigit, Bool.not_eq_true'] at hr
      simp [takeDigits, hr]
  | cons c cs ih =>
    have hc : isRegexDigit c = true := hd c (List.mem_cons_self _ _)
    have ih' := ih fun x hx => hd x (List.mem_cons_of_mem _ hx)
    simp [takeDigits, hc, ih']

theorem matchDigits_append (d r : List Char) (hne : d ≠ [])
    (hd : ∀ c ∈ d, isRegexDigit c = true) (hr : headNotDigit r = true) :
    matchDigits (d ++ r) = some (d, r) := by
  cases d with
  | nil => exact absurd rfl hne
  | cons c cs =>
    unfold matchDigits
    rw [takeDigits_append _ r hd hr]

theorem isDigit_isRegexDigit (c : Char) (h : c.isDigit = true) :
    isRegexDigit c = true := by
  rw [isRegexDigit, h, Bool.true_or]

theorem digitRun_ndRun (d : List Char) (h : digitRun d) : ndRun d :=
  ⟨h.1, fun c hc => isDigit_isRegexDigit c (h.2 c hc)⟩

theorem matchAt_eventLine (d1 d2 d3 d4 rest : List Char)
    (h1 : ndRun d1) (h2 : ndRun d2) (h3 : ndRun d3) (h4 : ndRun d4) :
    matchAt (eventLine d1 d2 d3 d4 ++ rest) = some (⟨d1, d2, d3, d4⟩, rest) := by
  have e2 : headNotDigit (lit2 ++ (d2 ++ (lit3 ++ (d3 ++ (lit4 ++ (d4 ++
      (lit5 ++ rest))))))) = true :=
    headNotDigit_append lit2 _ (by decide) (by decide)
  have e3 : headNotDigit (lit3 ++ (d3 ++ (lit4 ++ (d4 ++ (lit5 ++ rest))))) = true :=
    headNotDigit_append lit3 _ (by decide) (by decide)
  have e4 : headNotDigit (lit4 ++ (d4 ++ (lit5 ++ rest))) = true :=
    headNotDigit_append lit4 _ (by decide) (by decide)
  have e5 : headNotDigit (lit5 ++ rest) = true :=
    headNotDigit_append lit5 _ (by decide) (by decide)
  unfold matchAt eventLine
  simp only [List.append_assoc]
  rw [matchLit_append, Option.some_bind,
    matchDigits_append d1 _ h1.1 h1.2 e2, Option.some_bind]
  dsimp only
  rw [matchLit_append, Option.some_bind,
    matchDigits_append d2 _ h2.1 h2.2 e3, Option.some_bind]
  dsimp only
  rw [matchLit_append, Option.some_bind,
    matchDigits_append d3 _ h3.1 h3.2 e4, Option.some_bind]
  dsimp only
  rw [matchLit_append, Option.some_bind,
    matchDigits_append d4 _ h4.1 h4.2 e5, Option.some_bind]
  dsimp only
  rw [matchLit_append, Option.map_some']

theorem matchLit_none_of_mismatch :
    ∀ (p a s : List Char), litMismatch p a = true → matchLit p (a ++ s) = none
  | [], _, _, h => by cases h
  | _ :: _, [], _, h => by cases h
  | p :: ps, c :: cs, s, h => by
    by_cases hc : c = p
    · rw [litMismatch, if_pos hc] at h
      show matchLit (p :: ps) (c :: (cs ++ s)) = none
      rw [matchLit, if_pos hc]
      exact matchLit_none_of_mismatch ps cs s h
    · show matchLit (p :: ps) (c :: (cs ++ s)) = none
      rw [matchLit, if_neg hc]

theorem matchAt_none_of_mismatch (a s : List Char) (h : litMismatch lit1 a = true) :
    matchAt (a ++ s) = none := by
  unfold matchAt
  rw [matchLit_none_of_mismatch lit1 a s h]
  rfl

theorem scanAux_cons_none (c : Char) (l : List Char) (h : matchAt (c :: l) = none) :
    scanAux (c :: l) = scanAux l := by
  show scanFuel (l.length + 1) (c :: l) = scanAux l
  rw [scanFuel, h]
  exact rfl

theorem scanAux_some (s : List Char) (caps : Caps) (r : List Char)
    (h : matchAt s = some (caps, r)) : scanAux s = caps :: scanAux r := by
  cases s with
  | nil => rw [show matchAt [] = none from rfl] at h; cases h
  | cons c l =>
    show scanFuel (l.length + 1) (c :: l) = _
    rw [scanFuel, h]
    have hr : r.length ≤ l.length := by
      have := matchAt_length (c :: l) caps r h
      simp only [List.length_cons] at this
      omega
    show caps :: scanFuel l.length r = caps :: scanAux r
    rw [scanFuel_congr l.length r.length r hr (Nat.le_refl _)]
    exact rfl

theorem scanAux_append_of_allMismatch :
    ∀ (a s : List Char), allMismatch a = true → scanAux (a ++ s) = scanAux s
  | [], _, _ => rfl
  | c :: rest, s, h => by
    rw [allMismatch, Bool.and_eq_true] at h
    have hnone : matchAt ((c :: rest) ++ s) = none :=
      matchAt_none_of_mismatch (c :: rest) s h.1
    show scanAux (c :: (rest ++ s)) = scanAux s
    rw [scanAux_cons_none c (rest ++ s) hnone]
    exact scanAux_append_of_allMismatch rest s h.2

theorem isPrefixOf_append_self :
    ∀ (p s : List Char), p.isPrefixOf (p ++ s) = true
  | [], _ => by simp [List.isPrefixOf]
  | c :: ps, s => by
    show (c :: ps).isPrefixOf (c :: (ps ++ s)) = true
    simp [List.isPrefixOf, isPrefixOf_append_self ps s]

theorem containsSeq_append_self (pat s : List Char) (hp : pat ≠ []) :
    containsSeq pat (pat ++ s) = true := by
  cases pat with
  | nil => exact absurd rfl hp
  | cons c ps =>
    have hpre := isPrefixOf_append_self (c :: ps) s
    rw [List.cons_append] at hpre
    rw [List.cons_append, containsSeq, hpre, Bool.true_or]

theorem mapExcept_error_iff {α β : Type _} (f : α → Except Unit β) (l : List α) :
    mapExcept f l = .error () ↔ ∃ a ∈ l, f a = .error () := by
  induction l with
  | nil =>
    constructor
    · intro h; cases h
    · rintro ⟨a, ha, _⟩; cases ha
  | cons a as ih =>
    rcases hfa : f a with u | b
    · cases u
      constructor
      · intro _; exact ⟨a, List.mem_cons_self _ _, hfa⟩
      · intro _; rw [mapExcept, hfa]
    · rcases hrec : mapExcept f as with u | bs
      · cases u
        constructor
        · intro _
          rcases ih.mp hrec with ⟨x, hx, hfx⟩
          exact ⟨x, List.mem_cons_of_mem _ hx, hfx⟩
        · intro _; rw [mapExcept, hfa, hrec]
      · constructor
        · intro h
          rw [mapExcept, hfa, hrec] at h
          cases h
        · rintro ⟨x, hx, hfx⟩
          rcases List.mem_cons.mp hx with rfl | hx2
          · rw [hfa] at hfx; cases hfx
          · have hc : mapExcept f as = .error () := ih.mpr ⟨x, hx2, hfx⟩
            rw [hc] at hrec; cases hrec

theorem mapExcept_ok_forall {α β : Type _} (f : α → Except Unit β) (l : List α)
    (bs : List β) (h : mapExcept f l = .ok bs) : ∀ b ∈ bs, ∃ a ∈ l, f a = .ok b := by
  induction l generalizing bs with
  | nil =>
    rw [mapExcept] at h
    injection h with hbs
    subst hbs
    intro b hb
    cases hb
  | cons a as ih =>
    rcases hfa : f a with u | b0
    · rw [mapExcept, hfa] at h; cases h
    · rcases hrec : mapExcept f as with u | bs0
      · rw [mapExcept, hfa, hrec] at h; cases h
      · rw [mapExcept, hfa, hrec] at h
        injection h with hbs
        subst hbs
        intro b hb
        rcases List.mem_cons.mp hb with rfl | hb2
        · exact ⟨a, List.mem_cons_self _ _, hfa⟩
        · rcases ih bs0 hrec b hb2 with ⟨x, hx, hfx⟩
          exact ⟨x, List.mem_cons_of_mem _ hx, hfx⟩

theorem capsToEvent_op (op : Op) (c : Caps) (e : Event)
    (h : capsToEvent op c = .ok e) : e.op = op := by
  unfold capsToEvent at h
  rcases h1 : parseU64 c.sstDigits with u | sst <;> rw [h1] at h
  · cases h
  simp only [exceptBind_ok] at h
  rcases h2 : parseU64 c.blkDigits with u | blk <;> rw [h2] at h
  · cases h
  simp only [exceptBind_ok] at h
  rcases h3 : parseU64 c.secDigits with u | sec <;> rw [h3] at h
  · cases h
  simp only [exceptBind_ok] at h
  rcases h4 : parseU32 c.nsecDigits with u | nsec <;> rw [h4] at h
  · cases h
  simp only [exceptBind_ok] at h
  rcases h5 : durationNew sec nsec with u | dur <;> rw [h5] at h
  · cases h
  simp only [exceptBind_ok] at h
  rcases h6 : epochPlus dur with u | tm <;> rw [h6] at h
  · simp [Except.map] at h
  simp only [Except.map] at h
  injection h with he
  rw [← he]

theorem capsToEvent_ok_val (op : Op) (c : Caps) (h : capsWellFormed c) :
    capsToEvent op c = .ok (capsEvent op c) := by
  obtain ⟨ha1, ha2, ha3, ha4, hv1, hv2, hv3, hv4⟩ := h
  have hsecU : digitsVal c.secDigits < u64Bound := Nat.lt_trans hv3 (by decide)
  have hn32 : digitsVal c.nsecDigits < u32Bound := Nat.lt_trans hv4 (by decide)
  have hdiv : digitsVal c.nsecDigits / nanosPerSec = 0 := Nat.div_eq_of_lt hv4
  have hmod : digitsVal c.nsecDigits % nanosPerSec = digitsVal c.nsecDigits :=
    Nat.mod_eq_of_lt hv4
  have c1 : (c.sstDigits.all Char.isDigit && decide (digitsVal c.sstDigits < u64Bound)) = true := by
    rw [Bool.and_eq_true, List.all_eq_true]
    exact ⟨ha1, decide_eq_true hv1⟩
  have c2 : (c.blkDigits.all Char.isDigit && decide (digitsVal c.blkDigits < u64Bound)) = true := by
    rw [Bool.and_eq_true, List.all_eq_true]
    exact ⟨ha2, decide_eq_true hv2⟩
  have c3 : (c.secDigits.all Char.isDigit && decide (digitsVal c.secDigits < u64Bound)) = true := by
    rw [Bool.and_eq_true, List.all_eq_true]
    exact ⟨ha3, decide_eq_true hsecU⟩
  have c4 : (c.nsecDigits.all Char.isDigit && decide (digitsVal c.nsecDigits < u32Bound)) = true := by
    rw [Bool.and_eq_true, List.all_eq_true]
    exact ⟨ha4, decide_eq_true hn32⟩
  unfold capsToEvent parseU64 parseU32 durationNew epochPlus capsEvent
  rw [if_pos c1, if_pos c2, if_pos c3, if_pos c4]
  simp only [exceptBind_ok]
  rw [hdiv, Nat.add_zero, if_pos hsecU, hmod]
  simp only [exceptBind_ok]
  have hnd : (digitsVal c.secDigits * nanosPerSec + digitsVal c.nsecDigits) / nanosPerSec =
      digitsVal c.secDigits := by
    rw [Nat.add_comm, Nat.add_mul_div_right _ _ (by decide : 0 < nanosPerSec), hdiv,
      Nat.zero_add]
  rw [hnd, if_pos hv3]
  simp only [Except.map]

theorem capsToEvent_error_iff (op : Op) (c : Caps) :
    capsToEvent op c = .error () ↔ capsFatal c = true := by
  unfold capsToEvent parseU64 parseU32 durationNew epochPlus capsFatal
  by_cases h1 : (c.sstDigits.all Char.isDigit && decide (digitsVal c.sstDigits < u64Bound)) = true
  case neg =>
    rw [if_neg h1]
    simp only [exceptBind_error]
    simp only [Bool.and_eq_true, decide_eq_true_eq, not_and_or, Bool.not_eq_true] at h1
    rcases h1 with h1 | h1
    · simp [h1]
    · simp [Nat.le_of_not_lt h1]
  rw [if_pos h1]
  simp only [exceptBind_ok]
  rw [Bool.and_eq_true, decide_eq_true_eq] at h1
  obtain ⟨ha1, hv1⟩ := h1
  by_cases h2 : (c.blkDigits.all Char.isDigit && decide (digitsVal c.blkDigits < u64Bound)) = true
  case neg =>
    rw [if_neg h2]
    simp only [exceptBind_error]
    simp only [Bool.and_eq_true, decide_eq_true_eq, not_and_or, Bool.not_eq_true] at h2
    rcases h2 with h2 | h2
    · simp [h2]
    · simp [Nat.le_of_not_lt h2]
  rw [if_pos h2]
  simp only [exceptBind_ok]
  rw [Bool.and_eq_true, decide_eq_true_eq] at h2
  obtain ⟨ha2, hv2⟩ := h2
  by_cases h3 : (c.secDigits.all Char.isDigit && decide (digitsVal c.secDigits < u64Bound)) = true
  case neg =>
    rw [if_neg h3]
    simp only [exceptBind_error]
    simp only [Bool.and_eq_true, decide_eq_true_eq, not_and_or, Bool.not_eq_true] at h3
    rcases h3 with h3 | h3
    · simp [h3]
    · simp [Nat.le_of_not_lt h3]
  rw [if_pos h3]
  simp only [exceptBind_ok]
  rw [Bool.and_eq_true, decide_eq_true_eq] at h3
  obtain ⟨ha3, hv3⟩ := h3
  by_cases h4 : (c.nsecDigits.all Char.isDigit && decide (digitsVal c.nsecDigits < u32Bound)) = true
  case neg =>
    rw [if_neg h4]
    simp only [exceptBind_error]
    simp only [Bool.and_eq_true, decide_eq_true_eq, not_and_or, Bool.not_eq_true] at h4
    rcases h4 with h4 | h4
    · simp [h4]
    · simp [Nat.le_of_not_lt h4]
  rw [if_pos h4]
  simp only [exceptBind_ok]
  rw [Bool.and_eq_true, decide_eq_true_eq] at h4
  obtain ⟨ha4, hv4⟩ := h4
  by_cases hcarry : digitsVal c.secDigits + digitsVal c.nsecDigits / nanosPerSec < u64Bound
  case neg =>
    rw [if_neg hcarry]
    simp only [exceptBind_error]
    simp [Nat.le_of_not_lt hcarry]
  rw [if_pos hcarry]
  simp only [exceptBind_ok]
  have hdivS : ((digitsVal c.secDigits + digitsVal c.nsecDigits / nanosPerSec) * nanosPerSec +
      digitsVal c.nsecDigits % nanosPerSec) / nanosPerSec =
      digitsVal c.secDigits + digitsVal c.nsecDigits / nanosPerSec := by
    rw [Nat.add_comm, Nat.add_mul_div_right _ _ (by decide : 0 < nanosPerSec),
      Nat.div_eq_of_lt (Nat.mod_lt _ (by decide)), Nat.zero_add]
  rw [hdivS]
  by_cases hrange : digitsVal c.secDigits + digitsVal c.nsecDigits / nanosPerSec < i64SecBound
  case neg =>
    rw [if_neg hrange]
    simp [Except.map, Nat.le_of_not_lt hrange]
  rw [if_pos hrange]
  simp [Except.map, ha1, ha2, ha3, ha4, Nat.not_le.mpr hv1, Nat.not_le.mpr hv2,
    Nat.not_le.mpr hv3, Nat.not_le.mpr hv4, Nat.not_le.mpr hcarry, Nat.not_le.mpr hrange]

theorem parse_evicted (s : List Char) (h : containsSeq evMarker s = true) :
    parse s = mapExcept (capsToEvent Op.Evicted) (scanAux s) := by
  rw [parse, if_pos h]

theorem parse_neither (s : List Char) (he : containsSeq evMarker s = false)
    (hm : containsSeq missMarker s = false) : parse s = .ok [] := by
  rw [parse, he, hm]
  rfl

theorem mapExcept_pair {α β : Type _} (f : α → Except Unit β) (x y : α)
    (bx bz : β) (hx : f x = .ok bx) (hy : f y = .ok bz) :
    mapExcept f [x, y] = .ok [bx, bz] := by
  rw [mapExcept, hx, mapExcept, hy, mapExcept]

theorem mapExcept_single_err {α β : Type _} (f : α → Except Unit β) (x : α)
    (hx : f x = .error ()) : mapExcept f [x] = .error () := by
  rw [mapExcept, hx]

theorem mapExcept_cons_err {α β : Type _} (f : α → Except Unit β) (x : α) (xs : List α)
    (bx : β) (hx : f x = .ok bx) (hxs : mapExcept f xs = .error ()) :
    mapExcept f (x :: xs) = .error () := by
  rw [mapExcept, hx, hxs]

/-! ### The claims -/

/-- C1: after sorting descending by timestamp, the single left-to-right
unconditional-overwrite pass leaves, for every key that has an `Evicted`
event, the timestamp of a minimum-timestamp `Evicted` event for that key in
the index; in particular, three `Evicted` events for one key at times
`T1 < T2 < T3` resolve to `T1`. -/
theorem spec_C1 :
    (∀ (l : List Event) (k : Data),
      (∃ e ∈ l, e.op = Op.Evicted ∧ e.data = k) →
      ∃ e ∈ l, e.op = Op.Evicted ∧ e.data = k ∧
        lookupIdx (buildIndex (sortRecords l) []) k = some e.time ∧
        ∀ e' ∈ l, e'.op = Op.Evicted → e'.data = k → e.time ≤ e'.time) ∧
    (∀ (k : Data) (t1 t2 t3 : Nat), t1 < t2 → t2 < t3 →
      lookupIdx (buildIndex (sortRecords
          [⟨k, t3, Op.Evicted⟩, ⟨k, t2, Op.Evicted⟩, ⟨k, t1, Op.Evicted⟩]) []) k =
        some t1) := by
  have hmain : ∀ (l : List Event) (k : Data),
      (∃ e ∈ l, e.op = Op.Evicted ∧ e.data = k) →
      ∃ e ∈ l, e.op = Op.Evicted ∧ e.data = k ∧
        lookupIdx (buildIndex (sortRecords l) []) k = some e.time ∧
        ∀ e' ∈ l, e'.op = Op.Evicted → e'.data = k → e.time ≤ e'.time := by
    intro l k hex
    have hsorted : List.Pairwise timeDesc (sortRecords l) := sortRecords_sorted l
    have hidx : lookupIdx (buildIndex (sortRecords l) []) k =
        ((evictionsFor k (sortRecords l)).map Event.time).getLast? := by
      rw [lookupIdx_buildIndex]
      rw [show lookupIdx [] k = none from rfl, Option.or_none]
    rcases hex with ⟨e0, he0l, he0p, he0k⟩
    have he0f : e0 ∈ evictionsFor k (sortRecords l) := by
      rw [evictionsFor, List.mem_filter]
      exact ⟨(mem_sortRecords l e0).mpr he0l, by simp [he0p, he0k]⟩
    have hne : evictionsFor k (sortRecords l) ≠ [] := fun hnil => by
      rw [hnil] at he0f; cases he0f
    have hy : (evictionsFor k (sortRecords l)).getLast? =
        some ((evictionsFor k (sortRecords l)).getLast hne) :=
      List.getLast?_eq_getLast _ hne
    have hyf : (evictionsFor k (sortRecords l)).getLast hne ∈
        evictionsFor k (sortRecords l) := List.getLast_mem hne
    have hmemf : ∀ x, x ∈ evictionsFor k (sortRecords l) →
        x ∈ l ∧ x.op = Op.Evicted ∧ x.data = k := by
      intro x hx
      rw [evictionsFor, List.mem_filter] at hx
      rcases hx with ⟨hx1, hx2⟩
      simp only [decide_eq_true_iff] at hx2
      exact ⟨(mem_sortRecords l x).mp hx1, hx2.1, hx2.2⟩
    have hflp : List.Pairwise timeDesc (evictionsFor k (sortRecords l)) :=
      List.Pairwise.filter _ hsorted
    have hmin : ∀ x ∈ evictionsFor k (sortRecords l),
        ((evictionsFor k (sortRecords l)).getLast hne).time ≤ x.time :=
      getLast?_time_min _ _ hflp hy
    refine ⟨(evictionsFor k (sortRecords l)).getLast hne,
      (hmemf _ hyf).1, (hmemf _ hyf).2.1, (hmemf _ hyf).2.2, ?_, ?_⟩
    · rw [hidx, List.getLast?_map, hy]
      rfl
    · intro e' he'l he'p he'k
      apply hmin
      rw [evictionsFor, List.mem_filter]
      exact ⟨(mem_sortRecords l e').mpr he'l, by simp [he'p, he'k]⟩
  refine ⟨hmain, ?_⟩
  intro k t1 t2 t3 h12 h23
  rcases hmain [⟨k, t3, Op.Evicted⟩, ⟨k, t2, Op.Evicted⟩, ⟨k, t1, Op.Evicted⟩] k
      ⟨⟨k, t1, Op.Evicted⟩, by simp, rfl, rfl⟩ with ⟨e, hel, hep, hek, hlk, hminall⟩
  have hle : e.time ≤ t1 := hminall ⟨k, t1, Op.Evicted⟩ (by simp) rfl rfl
  have hge : t1 ≤ e.time := by
    simp only [List.mem_cons, List.not_mem_nil, or_false] at hel
    rcases hel with rfl | rfl | rfl
    · exact Nat.le_of_lt (Nat.lt_trans h12 h23)
    · exact Nat.le_of_lt h12
    · exact Nat.le_refl _
  rw [hlk, Nat.le_antisymm hle hge]

/-- C1 witness: three evictions of one key at times 1 < 2 < 3, aggregated in
descending order; the index resolves to the earliest time 1. -/
theorem spec_C1_witness :
    lookupIdx (buildIndex (sortRecords
        [⟨⟨1, 1⟩, 3, Op.Evicted⟩, ⟨⟨1, 1⟩, 2, Op.Evicted⟩, ⟨⟨1, 1⟩, 1, Op.Evicted⟩]) [])
      ⟨1, 1⟩ = some 1 :=
  spec_C1.2 ⟨1, 1⟩ 1 2 3 (by decide) (by decide)

/-- C2 counterexample: a sorted stream (eviction at 200 s, miss at 150 s,
eviction at 100 s of the same key) on which the single combined scan and the
two-pass method disagree, in the per-miss result (`Inverted` vs
`Resolved .Long`) and in the final tallies (`long = 0` vs `long = 1`). -/
theorem spec_C2_cex :
    List.Pairwise timeDesc
      [⟨⟨1, 1⟩, 200000000000, Op.Evicted⟩, ⟨⟨1, 1⟩, 150000000000, Op.Missed⟩,
        ⟨⟨1, 1⟩, 100000000000, Op.Evicted⟩] ∧
    combinedScan
        [⟨⟨1, 1⟩, 200000000000, Op.Evicted⟩, ⟨⟨1, 1⟩, 150000000000, Op.Missed⟩,
          ⟨⟨1, 1⟩, 100000000000, Op.Evicted⟩] [] ⟨0, 0, 0⟩ =
      .ok ([(⟨⟨1, 1⟩, 150000000000, Op.Missed⟩, .Inverted 50000000000)], ⟨0, 0, 0⟩) ∧
    twoPass
        [⟨⟨1, 1⟩, 200000000000, Op.Evicted⟩, ⟨⟨1, 1⟩, 150000000000, Op.Missed⟩,
          ⟨⟨1, 1⟩, 100000000000, Op.Evicted⟩] ⟨0, 0, 0⟩ =
      .ok ([(⟨⟨1, 1⟩, 150000000000, Op.Missed⟩, .Resolved 50000000000 .Long)], ⟨1, 0, 0⟩) ∧
    combinedScan
        [⟨⟨1, 1⟩, 200000000000, Op.Evicted⟩, ⟨⟨1, 1⟩, 150000000000, Op.Missed⟩,
          ⟨⟨1, 1⟩, 100000000000, Op.Evicted⟩] [] ⟨0, 0, 0⟩ ≠
      twoPass
        [⟨⟨1, 1⟩, 200000000000, Op.Evicted⟩, ⟨⟨1, 1⟩, 150000000000, Op.Missed⟩,
          ⟨⟨1, 1⟩, 100000000000, Op.Evicted⟩] ⟨0, 0, 0⟩ := by
  refine ⟨by decide, rfl, rfl, by decide⟩

/-- C2 (amended): the single combined scan agrees with the two-pass method
on streams where no `Missed` event is followed, later in the scan order, by
an `Evicted` event of the same key; on such streams every `Missed` event
gets the same `CorrelationResult` and the same final tallies.  (In general
the two methods disagree — see the counterexample — because a `Missed` event
can precede, in descending scan order, the `Evicted` event of its key that
survives in the finished index.) -/
theorem spec_C2 (l : List Event) (t : Tally) (h : scanSafe l = true) :
    combinedScan l [] t = twoPass l t :=
  combinedScan_eq_missLoop l [] t h

/-- C2 witness: an eviction at 100 s followed in scan order by a miss of the
same key at 50 s is scan-safe, and the combined scan equals the two passes. -/
theorem spec_C2_witness :
    combinedScan
        [⟨⟨1, 1⟩, 100000000000, Op.Evicted⟩, ⟨⟨1, 1⟩, 50000000000, Op.Missed⟩] [] ⟨0, 0, 0⟩ =
      twoPass [⟨⟨1, 1⟩, 100000000000, Op.Evicted⟩, ⟨⟨1, 1⟩, 50000000000, Op.Missed⟩] ⟨0, 0, 0⟩ :=
  spec_C2 [⟨⟨1, 1⟩, 100000000000, Op.Evicted⟩, ⟨⟨1, 1⟩, 50000000000, Op.Missed⟩]
    ⟨0, 0, 0⟩ (by decide)

/-- C3: a `Missed` event whose key is indexed with an eviction at or before
the miss resolves with `delta = miss_time - eviction_time`; a delta strictly
below 10 seconds is bucketed `Short` and bumps the `short` counter, any
other delta (including exactly 10 seconds) is bucketed `Long` and bumps the
`long` counter. -/
theorem spec_C3 (idx : EvictionIndex) (e : Event) (t : Tally) (tEvict : Nat)
    (hop : e.op = Op.Missed) (hlk : lookupIdx idx e.data = some tEvict)
    (hle : tEvict ≤ e.time) :
    missStep idx e t = .ok (.Resolved (e.time - tEvict)
        (if e.time - tEvict < shortBound then .Short else .Long),
      if e.time - tEvict < shortBound then { t with short := t.short + 1 }
      else { t with long := t.long + 1 }) := by
  have hnlt : ¬ e.time < tEvict := Nat.not_lt.mpr hle
  by_cases hsb : e.time - tEvict < shortBound
  · simp [missStep, hlk, hnlt, durationSince, hle, hsb]
  · simp [missStep, hlk, hnlt, durationSince, hle, hsb]

/-- C3 witness: a miss exactly 10 seconds after the indexed eviction is
bucketed `Long` and only the `long` counter moves. -/
theorem spec_C3_witness :
    missStep [(⟨1, 1⟩, 100)] ⟨⟨1, 1⟩, 10000000100, Op.Missed⟩ ⟨0, 0, 0⟩ =
      .ok (.Resolved (10000000100 - 100)
          (if (10000000100 : Nat) - 100 < shortBound then .Short else .Long),
        if (10000000100 : Nat) - 100 < shortBound then
          { long := 0, short := 0 + 1, none := 0 }
        else { long := 0 + 1, short := 0, none := 0 }) :=
  spec_C3 [(⟨1, 1⟩, 100)] ⟨⟨1, 1⟩, 10000000100, Op.Missed⟩ ⟨0, 0, 0⟩ 100
    rfl (by decide) (by decide)

/-- C4: a `Missed` event whose key is indexed with an eviction strictly
after the miss yields `Inverted` with `delta = eviction_time - miss_time`
(the branch that prints the `-` sign), and none of the three counters
changes. -/
theorem spec_C4 (idx : EvictionIndex) (e : Event) (t : Tally) (tEvict : Nat)
    (hop : e.op = Op.Missed) (hlk : lookupIdx idx e.data = some tEvict)
    (hgt : e.time < tEvict) :
    missStep idx e t = .ok (.Inverted (tEvict - e.time), t) := by
  simp [missStep, hlk, hgt, durationSince, Nat.le_of_lt hgt]

/-- C4 witness: eviction at 200 s, miss at 150 s, same key: `Inverted` with
delta 50 s and untouched tallies. -/
theorem spec_C4_witness :
    missStep [(⟨1, 1⟩, 200000000000)] ⟨⟨1, 1⟩, 150000000000, Op.Missed⟩ ⟨4, 5, 6⟩ =
      .ok (.Inverted (200000000000 - 150000000000), ⟨4, 5, 6⟩) :=
  spec_C4 [(⟨1, 1⟩, 200000000000)] ⟨⟨1, 1⟩, 150000000000, Op.Missed⟩ ⟨4, 5, 6⟩
    200000000000 rfl (by decide) (by decide)

/-- C5: a `Missed` event whose key occurs in no `Evicted` event of the whole
stream correlates as `Unmatched` (the branch that prints
`No evicted time found`), and only the `none` counter is incremented. -/
theorem spec_C5 (l : List Event) (e : Event) (t : Tally)
    (hop : e.op = Op.Missed)
    (hno : ∀ e' ∈ l, e'.op = Op.Evicted → e'.data ≠ e.data) :
    missStep (buildIndex (sortRecords l) []) e t =
      .ok (.Unmatched, { t with none := t.none + 1 }) := by
  have hno' : ∀ e' ∈ sortRecords l, e'.op = Op.Evicted → e'.data ≠ e.data := by
    intro e' he' hop'
    exact hno e' ((mem_sortRecords l e').mp he') hop'
  have hlk : lookupIdx (buildIndex (sortRecords l) []) e.data = none := by
    rw [lookupIdx_buildIndex_no_evict _ _ _ hno']
    rfl
  simp [missStep, hlk]

/-- C5 witness: a miss of key (1,1) against a stream whose only eviction is
of key (2,2): unmatched, `none` goes from 0 to 1, `long` and `short` stay. -/
theorem spec_C5_witness :
    missStep (buildIndex (sortRecords [⟨⟨2, 2⟩, 5, Op.Evicted⟩]) [])
        ⟨⟨1, 1⟩, 7, Op.Missed⟩ ⟨3, 4, 0⟩ =
      .ok (.Unmatched, { long := 3, short := 4, none := 0 + 1 }) :=
  spec_C5 [⟨⟨2, 2⟩, 5, Op.Evicted⟩] ⟨⟨1, 1⟩, 7, Op.Missed⟩ ⟨3, 4, 0⟩
    rfl (by decide)

/-- C6: after the sorter runs, every adjacent pair of the stream is
descending in timestamp, and the sort is stable: the subsequence of events
carrying any fixed timestamp is exactly the one of the input. -/
theorem spec_C6 (l : List Event) :
    (∀ (pre post : List Event) (a b : Event),
      sortRecords l = pre ++ a :: b :: post → b.time ≤ a.time) ∧
    (∀ tv : Nat, (sortRecords l).filter (fun e => decide (e.time = tv)) =
      l.filter (fun e => decide (e.time = tv))) := by
  refine ⟨?_, filter_time_sortRecords l⟩
  intro pre post a b heq
  have hs : List.Pairwise timeDesc (sortRecords l) := sortRecords_sorted l
  rw [heq] at hs
  have h2 := (List.pairwise_append.mp hs).2.1
  exact (List.pairwise_cons.mp h2).1 b (List.mem_cons_self _ _)

/-- C6 witness: a two-event stream given in ascending order; after sorting
the adjacent pair is descending (5 ≤ 7). -/
theorem spec_C6_witness :
    (⟨⟨1, 1⟩, 5, Op.Missed⟩ : Event).time ≤ (⟨⟨2, 2⟩, 7, Op.Evicted⟩ : Event).time :=
  (spec_C6 [⟨⟨1, 1⟩, 5, Op.Missed⟩, ⟨⟨2, 2⟩, 7, Op.Evicted⟩]).1 [] []
    ⟨⟨2, 2⟩, 7, Op.Evicted⟩ ⟨⟨1, 1⟩, 5, Op.Missed⟩ (by decide)

/-- C9: the guarded subtraction in each correlator branch is made in the
direction its branch condition guarantees to be non-negative, so
`duration_since` succeeds in both branches and the `missStep` error case
(the modelled `TimeArithmeticInvalid` panic) is unreachable. -/
theorem spec_C9 :
    (∀ (tEvict tMiss : Nat), tEvict ≤ tMiss → durationSince tMiss tEvict ≠ none) ∧
    (∀ (tEvict tMiss : Nat), tMiss < tEvict → durationSince tEvict tMiss ≠ none) ∧
    (∀ (idx : EvictionIndex) (e : Event) (t : Tally), (missStep idx e t).isOk = true) := by
  refine ⟨?_, ?_, missStep_ok⟩
  · intro a b h
    rw [durationSince, if_pos h]
    exact Option.some_ne_none _
  · intro a b h
    rw [durationSince, if_pos (Nat.le_of_lt h)]
    exact Option.some_ne_none _

/-- C9 witness: both guarded directions at concrete times, and a concrete
correlator step succeeding. -/
theorem spec_C9_witness :
    durationSince 7 5 ≠ none ∧ durationSince 9 2 ≠ none :=
  ⟨spec_C9.1 5 7 (by decide), spec_C9.2.1 9 2 (by decide)⟩

theorem parse_missed (s : List Char) (he : containsSeq evMarker s = false)
    (hm : containsSeq missMarker s = true) :
    parse s = mapExcept (capsToEvent Op.Missed) (scanAux s) := by
  rw [parse, he, hm]
  rfl

/-- C7 counterexample: a block with the Evicted marker and exactly two
well-formed event lines — every capture an ASCII decimal digit run fitting
its integer width, tv_nsec within 0-999,999,999 — whose second line carries
tv_sec = 9223372036854775808 = 2^63: the program aborts
(`UNIX_EPOCH + Duration` panics beyond the platform `SystemTime` range)
instead of extracting two events. -/
theorem spec_C7_cex :
    digitRun "9223372036854775808".toList ∧
    digitsVal "9223372036854775808".toList < u64Bound ∧
    parse (evMarker ++ '\n' :: (eventLine ['1'] ['2'] ['3'] ['4'] ++
        '\n' :: eventLine ['5'] ['6'] "9223372036854775808".toList ['0'])) = .error () := by
  refine ⟨by decide, by decide, ?_⟩
  rw [parse_evicted _ (containsSeq_append_self evMarker _ (by decide))]
  rw [List.append_cons evMarker '\n'
    (eventLine ['1'] ['2'] ['3'] ['4'] ++ '\n' :: eventLine ['5'] ['6']
      "9223372036854775808".toList ['0'])]
  rw [scanAux_append_of_allMismatch (evMarker ++ ['\n']) _ (by decide)]
  rw [scanAux_some _ _ _ (matchAt_eventLine ['1'] ['2'] ['3'] ['4']
    ('\n' :: eventLine ['5'] ['6'] "9223372036854775808".toList ['0'])
    (by decide) (by decide) (by decide) (by decide))]
  rw [show ('\n' :: eventLine ['5'] ['6'] "9223372036854775808".toList ['0'] : List Char) =
    ['\n'] ++ eventLine ['5'] ['6'] "9223372036854775808".toList ['0'] from rfl]
  rw [scanAux_append_of_allMismatch ['\n'] _ (by decide)]
  rw [show eventLine ['5'] ['6'] "9223372036854775808".toList ['0'] =
      eventLine ['5'] ['6'] "9223372036854775808".toList ['0'] ++ [] from
    (List.append_nil _).symm]
  rw [scanAux_some _ _ _ (matchAt_eventLine ['5'] ['6'] "9223372036854775808".toList ['0'] []
    (by decide) (by decide) (by decide) (by decide))]
  rw [show scanAux [] = [] from rfl]
  exact mapExcept_cons_err _ _ _ _
    (capsToEvent_ok_val Op.Evicted ⟨['1'], ['2'], ['3'], ['4']⟩ (by decide))
    (mapExcept_single_err _ _ ((capsToEvent_error_iff Op.Evicted
      ⟨['5'], ['6'], "9223372036854775808".toList, ['0']⟩).mpr (by decide)))

/-- C7 (amended): for every text block that contains the Evicted marker and
in which the event-line pattern matches exactly twice, both matches having
well-formed captures (ASCII decimal digit runs fitting their integer
widths, nanoseconds at most 999,999,999, and seconds within the platform
`SystemTime` range), extraction returns exactly the two `Evicted` events
with the captured keys and timestamps; the canonical marker/line/line
block realizes exactly two such matches for arbitrary digit captures; and
a block containing neither marker yields an empty result regardless of
content. -/
theorem spec_C7 :
    (∀ (s : List Char) (c1 c2 : Caps),
      containsSeq evMarker s = true → scanAux s = [c1, c2] →
      capsWellFormed c1 → capsWellFormed c2 →
      parse s = .ok [capsEvent Op.Evicted c1, capsEvent Op.Evicted c2]) ∧
    (∀ a1 a2 a3 a4 b1 b2 b3 b4 : List Char,
      digitRun a1 → digitRun a2 → digitRun a3 → digitRun a4 →
      digitRun b1 → digitRun b2 → digitRun b3 → digitRun b4 →
      scanAux (evMarker ++ '\n' :: (eventLine a1 a2 a3 a4 ++ '\n' :: eventLine b1 b2 b3 b4)) =
        [⟨a1, a2, a3, a4⟩, ⟨b1, b2, b3, b4⟩]) ∧
    (∀ s : List Char, containsSeq evMarker s = false → containsSeq missMarker s = false →
      parse s = .ok []) := by
  refine ⟨?_, ?_, parse_neither⟩
  · intro s c1 c2 hmark hscan hw1 hw2
    rw [parse_evicted s hmark, hscan]
    exact mapExcept_pair _ _ _ _ _
      (capsToEvent_ok_val Op.Evicted c1 hw1) (capsToEvent_ok_val Op.Evicted c2 hw2)
  · intro a1 a2 a3 a4 b1 b2 b3 b4 h1 h2 h3 h4 h5 h6 h7 h8
    rw [List.append_cons evMarker '\n'
      (eventLine a1 a2 a3 a4 ++ '\n' :: eventLine b1 b2 b3 b4)]
    rw [scanAux_append_of_allMismatch (evMarker ++ ['\n']) _ (by decide)]
    rw [scanAux_some _ _ _
      (matchAt_eventLine a1 a2 a3 a4 ('\n' :: eventLine b1 b2 b3 b4)
        (digitRun_ndRun _ h1) (digitRun_ndRun _ h2)
        (digitRun_ndRun _ h3) (digitRun_ndRun _ h4))]
    rw [show ('\n' :: eventLine b1 b2 b3 b4 : List Char) =
      ['\n'] ++ eventLine b1 b2 b3 b4 from rfl]
    rw [scanAux_append_of_allMismatch ['\n'] _ (by decide)]
    rw [show eventLine b1 b2 b3 b4 = eventLine b1 b2 b3 b4 ++ [] from
      (List.append_nil _).symm]
    rw [scanAux_some _ _ _ (matchAt_eventLine b1 b2 b3 b4 []
      (digitRun_ndRun _ h5) (digitRun_ndRun _ h6)
      (digitRun_ndRun _ h7) (digitRun_ndRun _ h8))]
    rfl

set_option maxRecDepth 8000 in
/-- C7 witness: the concrete canonical block with lines (1, 2, 3 s, 4 ns)
and (5, 6, 7 s, 8 ns) — whose scan provably yields exactly those two
matches — extracts the two Evicted events; and a concrete markerless block
extracts nothing. -/
theorem spec_C7_witness :
    parse (evMarker ++ '\n' ::
        (eventLine ['1'] ['2'] ['3'] ['4'] ++ '\n' :: eventLine ['5'] ['6'] ['7'] ['8'])) =
      .ok [capsEvent Op.Evicted ⟨['1'], ['2'], ['3'], ['4']⟩,
        capsEvent Op.Evicted ⟨['5'], ['6'], ['7'], ['8']⟩] ∧
    parse "no marker here".toList = .ok [] :=
  ⟨spec_C7.1 _ ⟨['1'], ['2'], ['3'], ['4']⟩ ⟨['5'], ['6'], ['7'], ['8']⟩
      (by decide) (by decide) (by decide) (by decide),
    spec_C7.2.2 "no marker here".toList (by decide) (by decide)⟩

/-- C8 counterexample: two fatal extractions with every captured value
fitting its target width.  First, tv_sec = 18446744073709551615 (u64::MAX)
with tv_nsec = 1000000000: the Duration::new nanosecond carry overflows the
64-bit seconds counter.  Second, an sst_id capture holding the Arabic-Indic
digit U+0663: the pattern (a default-Unicode regex `\d`) matches it, but
`parse::<u64>` rejects it (`InvalidDigit`), aborting with no overflow at
all. -/
theorem spec_C8_cex :
    digitsVal "18446744073709551615".toList < u64Bound ∧
    digitsVal "1000000000".toList < u32Bound ∧
    parse (evMarker ++ '\n' :: eventLine ['1'] ['1']
        "18446744073709551615".toList "1000000000".toList) = .error () ∧
    ('\u0663' : Char).isDigit = false ∧ isRegexDigit '\u0663' = true ∧
    parse (evMarker ++ '\n' :: eventLine ['\u0663'] ['1'] ['2'] ['3']) = .error () := by
  refine ⟨by decide, by decide, ?_, by decide, by decide, ?_⟩
  · rw [parse_evicted _ (containsSeq_append_self evMarker _ (by decide))]
    rw [List.append_cons evMarker '\n'
      (eventLine ['1'] ['1'] "18446744073709551615".toList "1000000000".toList)]
    rw [scanAux_append_of_allMismatch (evMarker ++ ['\n']) _ (by decide)]
    rw [show eventLine ['1'] ['1'] "18446744073709551615".toList "1000000000".toList =
        eventLine ['1'] ['1'] "18446744073709551615".toList "1000000000".toList ++ [] from
      (List.append_nil _).symm]
    rw [scanAux_some _ _ _ (matchAt_eventLine ['1'] ['1'] "18446744073709551615".toList
      "1000000000".toList [] (by decide) (by decide) (by decide) (by decide))]
    rw [show scanAux [] = [] from rfl]
    exact mapExcept_single_err _ _ ((capsToEvent_error_iff Op.Evicted
      ⟨['1'], ['1'], "18446744073709551615".toList, "1000000000".toList⟩).mpr (by decide))
  · rw [parse_evicted _ (containsSeq_append_self evMarker _ (by decide))]
    rw [List.append_cons evMarker '\n' (eventLine ['\u0663'] ['1'] ['2'] ['3'])]
    rw [scanAux_append_of_allMismatch (evMarker ++ ['\n']) _ (by decide)]
    rw [show eventLine ['\u0663'] ['1'] ['2'] ['3'] =
        eventLine ['\u0663'] ['1'] ['2'] ['3'] ++ [] from (List.append_nil _).symm]
    rw [scanAux_some _ _ _ (matchAt_eventLine ['\u0663'] ['1'] ['2'] ['3'] []
      (by decide) (by decide) (by decide) (by decide))]
    rw [show scanAux [] = [] from rfl]
    exact mapExcept_single_err _ _ ((capsToEvent_error_iff Op.Evicted
      ⟨['\u0663'], ['1'], ['2'], ['3']⟩).mpr (by decide))

/-- C8 (amended): extraction fails fast iff, under a recognized section
marker, some match's captured fields trigger a fatal conversion — a capture
holding a non-ASCII decimal digit (the Unicode pattern matches it, the
integer parse rejects it), a capture exceeding its integer width (`sst_id`,
`block_idx`, `tv_sec` as u64, `tv_nsec` as u32), the `Duration::new`
nanosecond carry `tv_sec + tv_nsec / 10^9` overflowing the 64-bit seconds
counter, or the carried seconds exceeding the platform `SystemTime` range
(unix: `i64::MAX`); any text not matching the event-line pattern is skipped
silently and never causes an error. -/
theorem spec_C8 (s : List Char) :
    parse s = .error () ↔
      ((containsSeq evMarker s = true ∨ containsSeq missMarker s = true) ∧
        ∃ c ∈ scanAux s, capsFatal c = true) := by
  cases he : containsSeq evMarker s with
  | true =>
    rw [parse_evicted s he, mapExcept_error_iff]
    constructor
    · rintro ⟨c, hc, herr⟩
      exact ⟨Or.inl rfl, c, hc, (capsToEvent_error_iff Op.Evicted c).mp herr⟩
    · rintro ⟨_, c, hc, hovf⟩
      exact ⟨c, hc, (capsToEvent_error_iff Op.Evicted c).mpr hovf⟩
  | false =>
    cases hm : containsSeq missMarker s with
    | true =>
      rw [parse_missed s he hm, mapExcept_error_iff]
      constructor
      · rintro ⟨c, hc, herr⟩
        exact ⟨Or.inr rfl, c, hc, (capsToEvent_error_iff Op.Missed c).mp herr⟩
      · rintro ⟨_, c, hc, hovf⟩
        exact ⟨c, hc, (capsToEvent_error_iff Op.Missed c).mpr hovf⟩
    | false =>
      rw [parse_neither s he hm]
      constructor
      · intro h; cases h
      · rintro ⟨hor, _⟩
        rcases hor with h | h
        · cases h
        · cases h

/-- C10: when a block contains both section markers, the Evicted check runs
first, so every extracted event is of kind `Evicted`. -/
theorem spec_C10 (s : List Char) (evs : List Event)
    (he : containsSeq evMarker s = true) (hm : containsSeq missMarker s = true)
    (hp : parse s = .ok evs) : ∀ e ∈ evs, e.op = Op.Evicted := by
  rw [parse_evicted s he] at hp
  intro e hev
  rcases mapExcept_ok_forall _ _ _ hp e hev with ⟨c, _, hc⟩
  exact capsToEvent_op _ c e hc

set_option maxRecDepth 8000 in
/-- C10 witness: a concrete block holding both markers and one event line;
the one extracted event is `Evicted`. -/
theorem spec_C10_witness :
    (⟨⟨1, 2⟩, 3000000004, Op.Evicted⟩ : Event).op = Op.Evicted :=
  spec_C10 (evMarker ++ '\n' :: (missMarker ++ '\n' :: eventLine ['1'] ['2'] ['3'] ['4']))
    [⟨⟨1, 2⟩, 3000000004, Op.Evicted⟩] (by decide) (by decide) (by decide)
    ⟨⟨1, 2⟩, 3000000004, Op.Evicted⟩ (List.mem_cons_self _ _)
